import Mathlib

/-!
Verification of the speech-analysis assignment script (assignment1.py / try.py).

The script is a one-pass pipeline: load a recording, resample it, extract a
25 ms frame from the middle, compute its magnitude spectrum, estimate LPC
coefficients, build the inverse-filter residual and gain, and evaluate the
all-pole envelope on the spectrum's frequency grid.  Pure numeric helpers are
embedded as Lean functions; library calls (librosa.lpc, scipy.signal.lfilter,
scipy.signal.freqz, numpy FFT helpers) are modelled from their documented
contracts, which the specification restates.

Samples are embedded as exact rationals or reals; floating point rounding is
not modelled, so "bit-exact to tolerance" claims are settled in exact
arithmetic.
-/

namespace Assignment1

/-! ## Frame extraction (plot_spectrum, lines 86-90)

`sound_middle = len(audio)//2`, `frame_samples_n = target_sr//40`,
`y_frame_s = audio[sound_middle : sound_middle+frame_samples_n]`.
A Python slice `xs[m : m+n]` (with `0 ≤ m`, `0 ≤ n`) is `take n (drop m xs)`:
it never fails and silently truncates at the end of the list. -/

def soundMiddle (audio : List ℚ) : ℕ := audio.length / 2

def frameSamplesN (targetSr : ℕ) : ℕ := targetSr / 40

def extractFrame (audio : List ℚ) (targetSr : ℕ) : List ℚ :=
  (audio.drop (soundMiddle audio)).take (frameSamplesN targetSr)

/-! ## Inverse filter, residual and gain (plot_spectrum, lines 103-107)

`numerator = np.concatenate([[0], [-(i) for i in a[1:]]])`,
`est_y_frame_s = lfilter(numerator, 1, y_frame_s)`,
`e = y_frame_s - est_y_frame_s`, `g = math.sqrt(sum(np.square(e)))`.

`scipy.signal.lfilter(b, 1, x)` is modelled from the spec (§4.4): it is the
external FIR capability, `y[n] = Σ_{k} b[k] · x[n-k]` over the valid indices
`k ≤ n`, `k < len(b)`. -/

def numerator (a : List ℚ) : List ℚ :=
  0 :: (a.drop 1).map (fun c => -c)

/-- Modelled from the spec: `scipy.signal.lfilter(b, 1, x)` is external
library code; §4.4 calls for applying the numerator as a finite impulse
response filter, `y[n] = Σ b[k]·x[n-k]`. -/
def lfilterFIR (b : List ℚ) (x : List ℚ) : List ℚ :=
  List.ofFn fun n : Fin x.length =>
    ((List.range x.length).map fun k => b.getD k 0 * x.getD (n.1 - k) 0 *
      (if k ≤ n.1 then 1 else 0)).sum

def predicted (frame a : List ℚ) : List ℚ :=
  lfilterFIR (numerator a) frame

def residual (frame a : List ℚ) : List ℚ :=
  List.zipWith (fun u v => u - v) frame (predicted frame a)

def sumSq (e : List ℚ) : ℚ :=
  (e.map fun v => v * v).sum

noncomputable def gain (e : List ℚ) : ℝ :=
  Real.sqrt ((sumSq e : ℚ) : ℝ)

/-! ## Supporting lemmas -/

theorem lfilterFIR_length (b x : List ℚ) : (lfilterFIR b x).length = x.length := by
  simp [lfilterFIR]

theorem zipWith_add_sub (x y : List ℚ) (h : y.length = x.length) :
    List.zipWith (fun u v => u + v) y (List.zipWith (fun u v => u - v) x y) = x := by
  induction y generalizing x with
  | nil =>
    cases x with
    | nil => rfl
    | cons a as => simp at h
  | cons b bs ih =>
    cases x with
    | nil => simp at h
    | cons a as =>
      simp only [List.zipWith_cons_cons]
      have hlen : bs.length = as.length := by
        simpa using h
      rw [ih as hlen]
      norm_num

theorem sumSq_nonneg (e : List ℚ) : 0 ≤ sumSq e := by
  unfold sumSq
  induction e with
  | nil => simp
  | cons a as ih =>
    simp only [List.map_cons, List.sum_cons]
    nlinarith [mul_self_nonneg a]

/-! ## LPC coefficient estimation (plot_spectrum, lines 100-101)

`a = librosa.lpc(y_frame_s, order=order)` is external library code.  The
specification (§4.3) contracts it as a standard autocorrelation-based linear
prediction with the Levinson-Durbin recursion as the canonical method, with a
deterministic fallback `a = [1, 0, ..., 0]` when the autocorrelation system is
singular. -/

/-- Modelled from the spec: `librosa.lpc` is external library code; §4.3 asks
for the biased autocorrelation of the frame, `r[k] = Σ_n x[n]·x[n+k]`. -/
def autocorr (x : List ℚ) (k : ℕ) : ℚ :=
  ((List.range (x.length - k)).map fun n => x.getD n 0 * x.getD (n + k) 0).sum

/-- Modelled from the spec: `librosa.lpc` is external library code; §4.3 asks
for the Levinson-Durbin recursion on the autocorrelation sequence `r`,
producing for order `i` the monic coefficient vector and the prediction-error
energy, with the deterministic fallback (extend by a zero coefficient) when
the system turns singular (`E = 0`). -/
def levinson (r : ℕ → ℚ) : ℕ → List ℚ × ℚ
  | 0 => ([1], r 0)
  | i + 1 =>
    let p := levinson r i
    let a := p.1
    let E := p.2
    if E = 0 then (a ++ [0], E)
    else
      let k := -(((List.range (i + 1)).map fun j => a.getD j 0 * r (i + 1 - j)).sum) / E
      ((List.range (i + 2)).map fun j => a.getD j 0 + k * a.getD (i + 1 - j) 0,
        E * (1 - k * k))

/-- Modelled from the spec: `librosa.lpc(frame, order=p)` — LPC coefficients
`a[0..p]` for the frame, by Levinson-Durbin on its autocorrelation. -/
def lpc (frame : List ℚ) (p : ℕ) : List ℚ :=
  (levinson (autocorr frame) p).1

theorem levinson_length_head (r : ℕ → ℚ) (i : ℕ) :
    (levinson r i).1.length = i + 1 ∧ (levinson r i).1.getD 0 0 = 1 := by
  induction i with
  | zero => simp [levinson]
  | succ i ih =>
    obtain ⟨hlen, hhead⟩ := ih
    by_cases hE : (levinson r i).2 = 0
    · refine ⟨?_, ?_⟩
      · simp [levinson, hE, hlen]
      · have hne : (levinson r i).1 ≠ [] := by
          intro hnil
          rw [hnil] at hlen
          simp at hlen
        simp only [levinson, hE, if_true]
        cases h : (levinson r i).1 with
        | nil => exact absurd h hne
        | cons c cs =>
          rw [h] at hhead
          simpa using hhead
    · refine ⟨?_, ?_⟩
      · simp [levinson, hE]
      · have hout : (levinson r i).1.getD (i + 1) 0 = 0 := by
          apply List.getD_eq_default
          omega
        simp only [levinson, hE, if_false]
        rw [List.getD_eq_getElem _ 0 (by simp)]
        simp only [List.getElem_map, List.getElem_range]
        rw [hhead]
        simp only [Nat.sub_zero, hout]
        ring

theorem getD_replicate_zero (L m : ℕ) : (List.replicate L (0 : ℚ)).getD m 0 = 0 := by
  rcases lt_or_ge m L with h | h
  · rw [List.getD_eq_getElem _ _ (by simpa using h)]
    simp
  · apply List.getD_eq_default
    simpa using h

theorem autocorr_zero_frame (L k : ℕ) : autocorr (List.replicate L 0) k = 0 := by
  unfold autocorr
  apply List.sum_eq_zero
  intro x hx
  simp only [List.mem_map] at hx
  obtain ⟨n, hn, rfl⟩ := hx
  rw [getD_replicate_zero, getD_replicate_zero]
  ring

theorem levinson_zero_r (r : ℕ → ℚ) (hr : ∀ k, r k = 0) (i : ℕ) :
    levinson r i = (1 :: List.replicate i 0, 0) := by
  induction i with
  | zero => simp [levinson, hr 0]
  | succ i ih =>
    simp [levinson, ih, List.replicate_succ']

/-! ## Pitch output (calculate_pitchperiod_and_f0, lines 50-54; try.py 14-17)

`f0_list = librosa.yin(...)`, `f0 = np.average(f0_list)`, then the function
prints `f0` and `1/f0` unconditionally.  NaN entries of the estimator's
output are modelled as `none`; `np.average` propagates NaN (and yields NaN on
an empty input), and `1/NaN` is NaN. -/

def npAverage (xs : List (Option ℚ)) : Option ℚ :=
  if xs.isEmpty || xs.any Option.isNone then none
  else some ((xs.filterMap id).sum / xs.length)

def pitchPrintedValues (f0List : List (Option ℚ)) : Option ℚ × Option ℚ :=
  let f0 := npAverage f0List
  (f0, f0.map fun v => 1 / v)

/-! ## Per-file orchestration (main, lines 138-151)

For each discovered file, `main` loads `y` at `orig_sr`, computes
`downsampled_y` at `target_sr`, and branches on
`len(basename.split("_")) == 3`: the segment path parses
`digit, voicing, letter` from `basename.replace(".wav", "").split("_")`,
calls the pitch routine on `y` iff `voicing == "voiced"`, and plots the
spectrum twice (without and with LPC envelope); the other path only plots the
waveform of `y` (not `downsampled_y`), passing `target_sr`. -/

def pySplit (c : Char) : List Char → List (List Char)
  | [] => [[]]
  | x :: xs =>
    let r := pySplit c xs
    if x = c then [] :: r
    else
      match r with
      | [] => [[x]]
      | h :: t => (x :: h) :: t

def removeWav : List Char → List Char
  | '.' :: 'w' :: 'a' :: 'v' :: rest => removeWav rest
  | c :: rest => c :: removeWav rest
  | [] => []

def voicedChars : List Char := ['v', 'o', 'i', 'c', 'e', 'd']

inductive Call where
  | pitchCalc (signal : List ℝ) (digit voicing letter : List Char)
  | plotSpectrum (signal : List ℝ) (sr : ℕ) (digit voicing letter : List Char)
      (lpcEnv : Bool)
  | plotWaveform (digit : List Char) (signal : List ℝ) (sr : ℕ)

def processFile (basename : List Char) (y dy : List ℝ) (targetSr : ℕ) : List Call :=
  if (pySplit '_' basename).length = 3 then
    let parts := pySplit '_' (removeWav basename)
    let digit := parts.getD 0 []
    let voicing := parts.getD 1 []
    let letter := parts.getD 2 []
    (if voicing = voicedChars then [Call.pitchCalc y digit voicing letter] else []) ++
      [Call.plotSpectrum dy targetSr digit voicing letter false,
        Call.plotSpectrum dy targetSr digit voicing letter true]
  else
    [Call.plotWaveform (removeWav basename) y targetSr]

def hasPitchCall (cs : List Call) : Bool :=
  cs.any fun c => match c with
    | Call.pitchCalc .. => true
    | _ => false

def hasSpectrumCall (lpcEnv : Bool) (cs : List Call) : Bool :=
  cs.any fun c => match c with
    | Call.plotSpectrum _ _ _ _ _ b => b == lpcEnv
    | _ => false

def hasWaveformCall (cs : List Call) : Bool :=
  cs.any fun c => match c with
    | Call.plotWaveform .. => true
    | _ => false

/-! ## Waveform time axis (plot_waveform, lines 33-34)

`t = np.linspace(0, L/target_sr, L)` with `L = len(audio)`.  numpy's
`linspace(a, b, n)` returns the n values `a + i·(b-a)/(n-1)`; for `n = 1` it
returns `[a]`, which the Lean convention `x / 0 = 0` reproduces. -/

noncomputable def linspace (a b : ℝ) (n : ℕ) : List ℝ :=
  List.ofFn fun i : Fin n => a + i * (b - a) / ((n : ℝ) - 1)

noncomputable def waveTimeAxis (audio : List ℝ) (targetSr : ℕ) : List ℝ :=
  linspace 0 ((audio.length : ℝ) / targetSr) audio.length

/-! ## Magnitude spectrum (plot_spectrum, lines 92-94)

`y_mag_spec = 20*np.log10(abs(np.fft.fft(y_frame_s)))`,
`y_mag_spec_final = np.fft.fftshift(y_mag_spec)`,
`f = np.linspace(-(target_sr//2), (target_sr//2), y_frame_s.shape[0])`.

`np.fft.fft` is the standard DFT `X[k] = Σ_n x[n]·e^(-2πi·k·n/N)`;
`np.fft.fftshift` is `np.roll(x, n//2)`, i.e. a left rotation by
`n - n//2`. -/

noncomputable def db (m : ℝ) : ℝ := 20 * Real.logb 10 m

noncomputable def dftCoeff (x : List ℂ) (k : ℕ) : ℂ :=
  ((List.range x.length).map fun n =>
    x.getD n 0 * Complex.exp (-(2 * Real.pi * k * n / x.length) * Complex.I)).sum

noncomputable def dft (x : List ℂ) : List ℂ :=
  List.ofFn fun k : Fin x.length => dftCoeff x k.1

def fftshiftL {α : Type} (x : List α) : List α :=
  x.rotate (x.length - x.length / 2)

noncomputable def magSpec (x : List ℝ) : List ℝ :=
  (dft (x.map Complex.ofReal)).map fun z => db (Complex.abs z)

noncomputable def magSpecFinal (x : List ℝ) : List ℝ :=
  fftshiftL (magSpec x)

noncomputable def freqAxis (rate : ℕ) (n : ℕ) : List ℝ :=
  linspace (-((rate / 2 : ℕ) : ℝ)) ((rate / 2 : ℕ) : ℝ) n

/-- Stated from the claim's words, for comparison with `freqAxis`: an axis
"linearly spaced from -rate/2 to +rate/2" (true halves, not Python floor
division). -/
noncomputable def specFreqAxis (rate : ℕ) (n : ℕ) : List ℝ :=
  linspace (-(rate : ℝ) / 2) ((rate : ℝ) / 2) n

/-- Stated from the claim's words, for comparison with `magSpecFinal`: entry
k of the shifted spectrum is 20·log10 of the magnitude of DFT bin
(k + n - n/2) mod n, i.e. the spectrum with zero frequency centred. -/
noncomputable def specShiftedSpectrum (x : List ℝ) : List ℝ :=
  List.ofFn fun k : Fin x.length =>
    db (Complex.abs (dftCoeff (x.map Complex.ofReal)
      ((k.1 + (x.length - x.length / 2)) % x.length)))

/-! ## LPC envelope evaluation (plot_spectrum, lines 112-114)

`h = freqz(g, a, f, fs=target_sr)` followed by `20*np.log10(abs(h[1]))`.
`scipy.signal.freqz(b, a, worN, fs)` is external library code, modelled from
its documented contract: it evaluates `B(z)/A(z)` at `z = e^(-iω)` with
`ω = 2π·f/fs` for each requested frequency `f`. -/

def polyEval {F : Type} [Field F] : List F → F → F
  | [], _ => 0
  | c :: cs, z => c + z * polyEval cs z

noncomputable def unitCircleZ (fr fs : ℝ) : ℂ :=
  Complex.exp (-(2 * Real.pi * fr / fs) * Complex.I)

/-- Modelled from the spec: `scipy.signal.freqz(b, a, f, fs)` is external
library code; it returns the transfer function `B(z)/A(z)` evaluated on the
unit circle at angle `2π·f/fs`. -/
noncomputable def freqzH (b a : List ℝ) (fr fs : ℝ) : ℂ :=
  polyEval (b.map Complex.ofReal) (unitCircleZ fr fs) /
    polyEval (a.map Complex.ofReal) (unitCircleZ fr fs)

noncomputable def lpcEnvelopeDb (g : ℝ) (a : List ℝ) (rate : ℕ) (n : ℕ) : List ℝ :=
  (freqAxis rate n).map fun fr => db (Complex.abs (freqzH [g] a fr rate))

/-- Stated from the claim's words, for comparison with `lpcEnvelopeDb`: the
rational transfer function gain / A(z). -/
noncomputable def specTransfer (g : ℝ) (a : List ℝ) (fr fs : ℝ) : ℂ :=
  (g : ℂ) / polyEval (a.map Complex.ofReal) (unitCircleZ fr fs)

/-! ## Claim theorems -/

/-- C1: for every frame of length L and order p with 1 ≤ p < L, the LPC
coefficient estimation invoked in plot_spectrum returns a vector of exactly
p+1 coefficients whose first entry equals 1. -/
theorem lpc_length_and_monic (frame : List ℚ) (p : ℕ)
    (h1 : 1 ≤ p) (h2 : p < frame.length) :
    (lpc frame p).length = p + 1 ∧ (lpc frame p).getD 0 0 = 1 :=
  levinson_length_head (autocorr frame) p

/-- Witness for C1 at the concrete frame [1, 0, 0, 1] with order 2. -/
theorem lpc_length_and_monic_witness :
    (lpc [1, 0, 0, 1] 2).length = 2 + 1 ∧ (lpc [1, 0, 0, 1] 2).getD 0 0 = 1 :=
  lpc_length_and_monic [1, 0, 0, 1] 2 (by decide) (by decide)

/-- C3: on an all-zero frame the LPC estimation returns the deterministic
fallback [1, 0, ..., 0]; being a total function into List ℚ it raises no
numeric fault and produces no NaN. -/
theorem lpc_zero_frame_fallback (L p : ℕ) :
    lpc (List.replicate L 0) p = 1 :: List.replicate p 0 := by
  unfold lpc
  rw [levinson_zero_r (autocorr (List.replicate L 0)) (autocorr_zero_frame L) p]

/-- C7: frame extraction returns the contiguous window of `target_sr // 40`
samples starting at index `len(audio) // 2`; when the signal is shorter than
midpoint plus window length the result is silently truncated to the samples
that remain, and the (total) function never fails. -/
theorem frame_extraction_window (audio : List ℚ) (targetSr : ℕ) :
    extractFrame audio targetSr =
      (List.range (min (frameSamplesN targetSr)
          (audio.length - soundMiddle audio))).map
        (fun i => audio.getD (soundMiddle audio + i) 0) := by
  apply List.ext_getElem
  · simp [extractFrame]
  · intro i h1 h2
    have hi : i < min (frameSamplesN targetSr) (audio.length - soundMiddle audio) := by
      simpa [extractFrame] using h1
    have hidx : soundMiddle audio + i < audio.length := by
      have h3 : i < audio.length - soundMiddle audio := lt_of_lt_of_le hi (min_le_right _ _)
      omega
    have hdrop : i < (audio.drop (soundMiddle audio)).length := by
      simp only [List.length_drop]
      exact lt_of_lt_of_le hi (min_le_right _ _)
    simp only [extractFrame, List.getElem_take, List.getElem_drop,
      List.getElem_map, List.getElem_range]
    rw [List.getD_eq_getElem audio 0 hidx]

/-- C2: FIR-filtering the frame with the numerator `[0, -a[1], ..., -a[p]]`
gives the predicted signal; adding the residual (frame minus predicted) back
to the predicted signal reconstructs the frame exactly (exact arithmetic, so
in particular within any floating-point tolerance). -/
theorem predicted_add_residual (frame a : List ℚ) :
    List.zipWith (fun u v => u + v) (predicted frame a) (residual frame a) = frame := by
  apply zipWith_add_sub
  simp [predicted, lfilterFIR_length]

/-- C4: the gain is the square root of the sum of squared residual samples
(`g^2` recovers that sum), and it is non-negative for every frame and every
coefficient vector. -/
theorem gain_sqrt_sumSq_nonneg (frame a : List ℚ) :
    0 ≤ gain (residual frame a) ∧
      gain (residual frame a) ^ 2 = ((sumSq (residual frame a) : ℚ) : ℝ) := by
  constructor
  · exact Real.sqrt_nonneg _
  · apply Real.sq_sqrt
    exact_mod_cast sumSq_nonneg (residual frame a)

/-- C8: on an all-unvoiced/NaN fundamental-frequency sequence the code does
not surface a "no pitch detected" condition: it propagates NaN (modelled as
`none`) straight into both printed values, the fundamental frequency and the
pitch period. -/
theorem pitch_nan_propagates :
    pitchPrintedValues [none, none] = (none, none) := rfl

/-- C9: processing branches on the filename shape: a basename with exactly
three underscore-separated components takes the segment path (spectrum
without and with LPC envelope, pitch estimation iff the voicing component is
"voiced"); every other basename takes the whole-digit path, where only the
waveform is plotted. -/
theorem main_branching (name : List Char) (y dy : List ℝ) (sr : ℕ) :
    (hasWaveformCall (processFile name y dy sr) = true ↔
        (pySplit '_' name).length ≠ 3)
    ∧ (hasSpectrumCall false (processFile name y dy sr) = true ↔
        (pySplit '_' name).length = 3)
    ∧ (hasSpectrumCall true (processFile name y dy sr) = true ↔
        (pySplit '_' name).length = 3)
    ∧ (hasPitchCall (processFile name y dy sr) = true ↔
        (pySplit '_' name).length = 3 ∧
          (pySplit '_' (removeWav name)).getD 1 [] = voicedChars)
    ∧ ((pySplit '_' name).length ≠ 3 →
        processFile name y dy sr = [Call.plotWaveform (removeWav name) y sr]) := by
  by_cases h3 : (pySplit '_' name).length = 3
  · by_cases hv : (pySplit '_' (removeWav name))[1]?.getD [] = voicedChars
    · simp [processFile, h3, hv, hasWaveformCall, hasSpectrumCall, hasPitchCall]
    · simp [processFile, h3, hv, hasWaveformCall, hasSpectrumCall, hasPitchCall]
  · simp [processFile, h3, hasWaveformCall, hasSpectrumCall, hasPitchCall]

/-- Witness for C9 at the concrete whole-digit basename "7.wav". -/
theorem main_branching_witness :
    processFile ['7', '.', 'w', 'a', 'v'] [0] [0] 8000 =
      [Call.plotWaveform ['7'] [0] 8000] :=
  (main_branching ['7', '.', 'w', 'a', 'v'] [0] [0] 8000).2.2.2.2 (by decide)

/-- C10: on the whole-digit path, main passes plot_waveform the signal `y`
decoded at orig_sr, not the resampled signal, together with target_sr;
plot_waveform builds its time axis as linspace(0, L/target_sr, L), so the
plotted time span is L/target_sr seconds, which equals the real duration
L/orig_sr exactly when orig_sr = target_sr. -/
theorem waveform_time_span (name : List Char) (y dy : List ℝ) (origSr targetSr : ℕ)
    (hname : (pySplit '_' name).length ≠ 3)
    (hL : 2 ≤ y.length) (ho : 0 < origSr) (ht : 0 < targetSr) :
    processFile name y dy targetSr = [Call.plotWaveform (removeWav name) y targetSr]
    ∧ (waveTimeAxis y targetSr).getD (y.length - 1) 0 = (y.length : ℝ) / targetSr
    ∧ ((y.length : ℝ) / targetSr = (y.length : ℝ) / origSr ↔ origSr = targetSr) := by
  refine ⟨(main_branching name y dy targetSr).2.2.2.2 hname, ?_, ?_⟩
  · have hlt : y.length - 1 < (waveTimeAxis y targetSr).length := by
      simp only [waveTimeAxis, linspace, List.length_ofFn]
      omega
    rw [List.getD_eq_getElem _ _ hlt]
    simp only [waveTimeAxis, linspace, List.getElem_ofFn]
    have hcast : ((y.length - 1 : ℕ) : ℝ) = (y.length : ℝ) - 1 := by
      have : (1 : ℕ) ≤ y.length := by omega
      push_cast [this]
      ring
    have hne : (y.length : ℝ) - 1 ≠ 0 := by
      have : (2 : ℝ) ≤ (y.length : ℝ) := by exact_mod_cast hL
      nlinarith
    rw [hcast]
    field_simp
    ring
  · have hLpos : (0 : ℝ) < (y.length : ℝ) := by
      have : (2 : ℝ) ≤ (y.length : ℝ) := by exact_mod_cast hL
      linarith
    have hopos : (0 : ℝ) < (origSr : ℝ) := by exact_mod_cast ho
    have htpos : (0 : ℝ) < (targetSr : ℝ) := by exact_mod_cast ht
    constructor
    · intro h
      rw [div_eq_div_iff (ne_of_gt htpos) (ne_of_gt hopos)] at h
      have h2 : (origSr : ℝ) = (targetSr : ℝ) :=
        mul_left_cancel₀ (ne_of_gt hLpos) h
      exact_mod_cast h2
    · intro h
      rw [h]

/-- Witness for C10 with basename "7.wav", a two-sample signal, orig_sr 22050
and target_sr 8000. -/
theorem waveform_time_span_witness :
    processFile ['7', '.', 'w', 'a', 'v'] [0, 1] [] 8000 =
        [Call.plotWaveform ['7'] [0, 1] 8000]
    ∧ (waveTimeAxis [0, 1] 8000).getD (([0, 1] : List ℝ).length - 1) 0 =
        (([0, 1] : List ℝ).length : ℝ) / 8000
    ∧ ((([0, 1] : List ℝ).length : ℝ) / 8000 =
        (([0, 1] : List ℝ).length : ℝ) / 22050 ↔ 22050 = 8000) :=
  waveform_time_span ['7', '.', 'w', 'a', 'v'] [0, 1] [] 22050 8000
    (by decide) (by decide) (by norm_num) (by norm_num)

/-- C5: the LPC envelope is the dB magnitude (same 20·log10 mapping `db` as
the raw spectrum) of the rational transfer function gain / A(z), evaluated at
every frequency of the spectrum's frequency axis at the target sample rate. -/
theorem lpc_envelope_is_transfer_function (g : ℝ) (a : List ℝ) (rate n : ℕ) :
    lpcEnvelopeDb g a rate n =
      (freqAxis rate n).map fun fr => db (Complex.abs (specTransfer g a fr rate)) := by
  unfold lpcEnvelopeDb
  apply List.map_congr_left
  intro fr _
  have hnum : polyEval ([g].map Complex.ofReal) (unitCircleZ fr rate) = (g : ℂ) := by
    simp [polyEval]
  rw [freqzH, hnum, specTransfer]

/-- C6 counterexample: at the odd sample rate 3 with a two-sample frame, the
code's frequency axis (floor division, endpoints ±(3//2) = ±1) differs from
the claimed axis with endpoints ±3/2. -/
theorem freq_axis_counterexample : freqAxis 3 2 ≠ specFreqAxis 3 2 := by
  intro h
  have h0 := congrArg (fun l => l.getD 0 0) h
  have e1 : ((3 / 2 : ℕ) : ℝ) = 1 := by norm_num
  simp only [freqAxis, specFreqAxis, linspace, List.ofFn_succ, List.getD_cons_zero,
    e1] at h0
  norm_num at h0

/-- C6 amended: the magnitude spectrum is 20·log10 of the absolute value of
the frame's DFT with zero frequency centred, and the frequency axis has one
point per frame sample, linearly spaced from -(rate//2) to +(rate//2); for an
even sample rate (in particular the default 8000) these endpoints equal
-rate/2 and +rate/2 as the claim states. -/
theorem magnitude_spectrum_and_axis (x : List ℝ) (rate : ℕ) (h : 2 ∣ rate) :
    magSpecFinal x = specShiftedSpectrum x ∧
      freqAxis rate x.length = specFreqAxis rate x.length ∧
      (freqAxis rate x.length).length = x.length := by
  refine ⟨?_, ?_, ?_⟩
  · apply List.ext_getElem
    · simp [magSpecFinal, fftshiftL, magSpec, specShiftedSpectrum, dft]
    · intro i h1 h2
      have hlen : (magSpec x).length = x.length := by
        simp [magSpec, dft]
      simp only [magSpecFinal, fftshiftL, specShiftedSpectrum]
      rw [List.getElem_rotate]
      simp only [magSpec, List.getElem_map, dft, List.getElem_ofFn, List.getElem_ofFn]
      simp [hlen]
  · obtain ⟨m, rfl⟩ := h
    have h1 : 2 * m / 2 = m := by omega
    have h2 : ((2 * m : ℕ) : ℝ) / 2 = (m : ℝ) := by
      push_cast
      ring
    rw [freqAxis, specFreqAxis, h1, neg_div, h2]
  · simp [freqAxis, linspace]

/-- Witness for C6 (amended) at a one-sample frame and the default target
sample rate 8000. -/
theorem magnitude_spectrum_and_axis_witness :
    magSpecFinal [1] = specShiftedSpectrum [1] ∧
      freqAxis 8000 ([1] : List ℝ).length = specFreqAxis 8000 ([1] : List ℝ).length ∧
      (freqAxis 8000 ([1] : List ℝ).length).length = ([1] : List ℝ).length :=
  magnitude_spectrum_and_axis [1] 8000 (by norm_num)

end Assignment1
